import Mathlib

/-!
Shallow embedding of the cutting-materials core
(`packages/cutting-core/src/index.ts`) and of the in-memory plan store
(`apps/api/src/db/memory-store.ts`).

Conventions of the embedding:
* A JavaScript number that reaches the core is modelled as `Option Int`;
  `none` stands for a non-finite value (`NaN`, `±Infinity`), `some v` for a
  finite value whose rounding is `v`.  `toNonNegativeInt` mirrors the
  source's sanitizer.
* A JavaScript `Map` is modelled as an association list in insertion order;
  `tallyIncr` mirrors `map.set(k, (map.get(k) ?? 0) + 1)` and `lookupTally`
  mirrors `map.get`.
* `Array.prototype.sort` with comparator `(a, b) => b - a` (resp. `a - b`)
  is modelled by the stable insertion sorts `sortDescBy` / `sortAscBy`;
  on the lists the source sorts, all tied elements are equal, so any
  stable model is exact.
-/

namespace CuttingCore

inductive PlanStatus where
  | SUCCESS
  | PARTIAL
  | FAIL
deriving DecidableEq

inductive ShortageReason where
  | NO_STOCK_LONG_ENOUGH
  | KERF_ALLOWANCE_MAKES_IT_IMPOSSIBLE
  | INSUFFICIENT_STOCK_AFTER_ALLOCATION
deriving DecidableEq

structure InventoryItem where
  id : Int
  lengthMm : Option Int
  qty : Option Int
deriving DecidableEq

structure PlanParams where
  kerfMm : Int
  allowanceMm : Int
  minRemnantMm : Int
  toleranceMm : Int
deriving DecidableEq

structure PartialPlanParams where
  kerfMm : Option Int := none
  allowanceMm : Option Int := none
  minRemnantMm : Option Int := none
  toleranceMm : Option Int := none
deriving DecidableEq

structure OrderLineMm where
  heightMm : Option Int
  widthMm : Option Int
  qty : Option Int
deriving DecidableEq

structure CutPiece where
  pieceMm : Int
  effectiveMm : Int
deriving DecidableEq

structure StockRef where
  lengthMm : Int
  sourceId : Int
deriving DecidableEq

structure Allocation where
  stock : StockRef
  cuts : List CutPiece
  usedMm : Int
  remnantMm : Int
  remnantKept : Bool
deriving DecidableEq

structure ShortageItem where
  pieceMm : Int
  missingCount : Int
  reason : ShortageReason
deriving DecidableEq

structure CutListItem where
  pieceMm : Int
  count : Int
deriving DecidableEq

structure CutPlanStats where
  totalPieces : Int
  totalUsedStocks : Int
  totalWasteMm : Int
deriving DecidableEq

structure CutPlanResult where
  status : PlanStatus
  cutList : List CutListItem
  allocations : List Allocation
  shortage : List ShortageItem
  stats : CutPlanStats
deriving DecidableEq

structure MutableBar where
  sourceId : Int
  originalMm : Int
  remainingMm : Int
  cuts : List CutPiece
deriving DecidableEq

def DEFAULT_PLAN_PARAMS : PlanParams :=
  { kerfMm := 3, allowanceMm := 1, minRemnantMm := 100, toleranceMm := 1 }

/-- `toNonNegativeInt` from the source: non-finite values become `0`,
finite values are rounded (already integral in this model) and clamped
below by `0`. -/
def toNonNegativeInt : Option Int → Int
  | none => 0
  | some v => max 0 v

def normalizePlanParams (params : Option PartialPlanParams) : PlanParams :=
  { kerfMm := (params.bind (·.kerfMm)).getD DEFAULT_PLAN_PARAMS.kerfMm
    allowanceMm := (params.bind (·.allowanceMm)).getD DEFAULT_PLAN_PARAMS.allowanceMm
    minRemnantMm := (params.bind (·.minRemnantMm)).getD DEFAULT_PLAN_PARAMS.minRemnantMm
    toleranceMm := (params.bind (·.toleranceMm)).getD DEFAULT_PLAN_PARAMS.toleranceMm }

/-- The JS `Map` tally update `map.set(k, (map.get(k) ?? 0) + 1)`:
increment in place when the key is present, append `(k, 1)` otherwise. -/
def tallyIncr {κ : Type} [DecidableEq κ] : List (κ × Int) → κ → List (κ × Int)
  | [], k => [(k, 1)]
  | e :: rest, k => if e.1 = k then (e.1, e.2 + 1) :: rest else e :: tallyIncr rest k

/-- `map.get k` on an association list. -/
def lookupTally {κ : Type} [DecidableEq κ] : List (κ × Int) → κ → Option Int
  | [], _ => none
  | e :: rest, k => if e.1 = k then some e.2 else lookupTally rest k

/-- Stable insertion sort, descending by an integer key: the model of
`array.sort((a, b) => key b - key a)`. -/
def insertDescBy {α : Type} (key : α → Int) (x : α) : List α → List α
  | [] => [x]
  | y :: ys => if key y < key x then x :: y :: ys else y :: insertDescBy key x ys

def sortDescBy {α : Type} (key : α → Int) (l : List α) : List α :=
  l.foldr (insertDescBy key) []

/-- Stable insertion sort, ascending by an integer key: the model of
`array.sort((a, b) => key a - key b)`. -/
def insertAscBy {α : Type} (key : α → Int) (x : α) : List α → List α
  | [] => [x]
  | y :: ys => if key x < key y then x :: y :: ys else y :: insertAscBy key x ys

def sortAscBy {α : Type} (key : α → Int) (l : List α) : List α :=
  l.foldr (insertAscBy key) []

/-- `expandOrderToPieces`: each demand line pushes its rounded height and
width `2 * qty` times each, then non-positive values are filtered out. -/
def expandOrderToPieces (orderLines : List OrderLineMm) : List Int :=
  ((orderLines.map (fun line =>
      (List.replicate (2 * (toNonNegativeInt line.qty).toNat)
        [toNonNegativeInt line.heightMm, toNonNegativeInt line.widthMm]).flatten)).flatten).filter
    (fun piece => decide (0 < piece))

/-- `expandInventory`: a row of quantity `n` becomes `n` independent bars. -/
def expandInventory (items : List InventoryItem) : List MutableBar :=
  (items.map (fun item =>
    List.replicate (toNonNegativeInt item.qty).toNat
      { sourceId := item.id
        originalMm := toNonNegativeInt item.lengthMm
        remainingMm := toNonNegativeInt item.lengthMm
        cuts := [] })).flatten

/-- `Math.max(0, ...inventoryItems.map(x => toNonNegativeInt(x.lengthMm)))`. -/
def maxStockLen (items : List InventoryItem) : Int :=
  items.foldl (fun acc x => max acc (toNonNegativeInt x.lengthMm)) 0

/-- `countOf` from the source. -/
def countOf : List Int → Int → Int
  | [], _ => 0
  | v :: rest, target => (if v = target then 1 else 0) + countOf rest target

/-- `summarizePieces`: tally the pieces in first-seen order, then sort the
entries ascending by piece length. -/
def summarizePieces (pieces : List Int) : List CutListItem :=
  (sortAscBy (fun e => e.1) (pieces.foldl tallyIncr [])).map
    (fun e => { pieceMm := e.1, count := e.2 })

/-- The bar-scanning loop of the engine: `i` is the index of the head of
the remaining list, `best` is `(bestIdx, bestRemnant)` so far (`none`
models `bestIdx = -1, bestRemnant = Infinity`); a bar displaces the best
only with a strictly smaller leftover. -/
def findBestIdxGo (eff : Int) : List MutableBar → Nat → Option (Nat × Int) → Option (Nat × Int)
  | [], _, best => best
  | bar :: rest, i, best =>
    if bar.remainingMm < eff then
      findBestIdxGo eff rest (i + 1) best
    else
      match best with
      | none => findBestIdxGo eff rest (i + 1) (some (i, bar.remainingMm - eff))
      | some (bi, br) =>
        if bar.remainingMm - eff < br then
          findBestIdxGo eff rest (i + 1) (some (i, bar.remainingMm - eff))
        else
          findBestIdxGo eff rest (i + 1) (some (bi, br))

def findBestIdx (bars : List MutableBar) (eff : Int) : Option Nat :=
  (findBestIdxGo eff bars 0 none).map Prod.fst

/-- One iteration of the piece loop: best-fit the piece, or tally it as
shortage when no bar can take it. -/
def allocStep (p : PlanParams) (st : List MutableBar × List (Int × Int)) (piece : Int) :
    List MutableBar × List (Int × Int) :=
  let eff := piece + p.allowanceMm + p.kerfMm
  match findBestIdx st.1 eff with
  | none => (st.1, tallyIncr st.2 piece)
  | some i =>
    match st.1.get? i with
    | none => st
    | some bar =>
      (st.1.set i
        { bar with
          cuts := bar.cuts ++ [{ pieceMm := piece, effectiveMm := eff }]
          remainingMm := bar.remainingMm - eff }, st.2)

/-- `buildPlanFromPieces`, on an already sanitized, descending-sorted
piece list. -/
def buildPlanFromPieces (inventoryItems : List InventoryItem) (pieces : List Int)
    (normalizedParams : PlanParams) : CutPlanResult :=
  match pieces with
  | [] =>
    { status := .SUCCESS, cutList := [], allocations := [], shortage := []
      stats := { totalPieces := 0, totalUsedStocks := 0, totalWasteMm := 0 } }
  | longestPiece :: _ =>
    let longestWithAllowance := longestPiece + normalizedParams.allowanceMm
    let longestEffective := longestWithAllowance + normalizedParams.kerfMm
    let maxStock := maxStockLen inventoryItems
    if maxStock < longestEffective then
      { status := .FAIL
        cutList := summarizePieces pieces
        allocations := []
        shortage := [{ pieceMm := longestPiece
                       missingCount := countOf pieces longestPiece
                       reason := if longestWithAllowance ≤ maxStock then
                           .KERF_ALLOWANCE_MAKES_IT_IMPOSSIBLE
                         else
                           .NO_STOCK_LONG_ENOUGH }]
        stats := { totalPieces := (pieces.length : Int), totalUsedStocks := 0, totalWasteMm := 0 } }
    else
      let final := pieces.foldl (allocStep normalizedParams) (expandInventory inventoryItems, [])
      let allocations := (final.1.filter (fun bar => !bar.cuts.isEmpty)).map
        (fun bar =>
          { stock := { lengthMm := bar.originalMm, sourceId := bar.sourceId }
            cuts := bar.cuts
            usedMm := bar.originalMm - bar.remainingMm
            remnantMm := bar.remainingMm
            remnantKept := decide (normalizedParams.minRemnantMm ≤ bar.remainingMm) })
      let shortage := (sortDescBy (fun e => e.1) final.2).map
        (fun e =>
          { pieceMm := e.1, missingCount := e.2
            reason := ShortageReason.INSUFFICIENT_STOCK_AFTER_ALLOCATION })
      { status :=
          if shortage.length = 0 then .SUCCESS
          else if 0 < allocations.length then .PARTIAL
          else .FAIL
        cutList := summarizePieces pieces
        allocations := allocations
        shortage := shortage
        stats :=
          { totalPieces := (pieces.length : Int)
            totalUsedStocks := (allocations.length : Int)
            totalWasteMm := allocations.foldl
              (fun sum item => sum + (if item.remnantKept then 0 else item.remnantMm)) 0 } }

/-- Sanitize and sort descending, as `buildCutPlanBFDForPieces` does before
delegating to `buildPlanFromPieces`. -/
def sortedSanitizedPieces (piecesMm : List (Option Int)) : List Int :=
  sortDescBy (fun x => x)
    ((piecesMm.map toNonNegativeInt).filter (fun piece => decide (0 < piece)))

def buildCutPlanBFDForPieces (inventoryItems : List InventoryItem) (piecesMm : List (Option Int))
    (params : Option PartialPlanParams) : CutPlanResult :=
  buildPlanFromPieces inventoryItems (sortedSanitizedPieces piecesMm) (normalizePlanParams params)

def buildCutPlanBFD (inventoryItems : List InventoryItem) (orderLines : List OrderLineMm)
    (params : Option PartialPlanParams) : CutPlanResult :=
  buildCutPlanBFDForPieces inventoryItems ((expandOrderToPieces orderLines).map some) params

end CuttingCore

namespace MemoryStore

open CuttingCore

/-- The two inventory classes the store recognises;
`normalizeInventoryClass` is the identity on this closed type. -/
inductive InventoryClass where
  | Komarnici
  | ProzorskeDaske
deriving DecidableEq

structure InventoryRow where
  id : Int
  inventoryClass : InventoryClass
  lengthMm : Int
  qty : Int
deriving DecidableEq

inductive PlanState where
  | PLANNED
  | COMMITTED
deriving DecidableEq

structure MemoryPlan where
  params : PlanParams
  status : PlanState
  result : CutPlanResult
deriving DecidableEq

/-- The mutable state of `MemoryStore`: `inventoryById` in insertion order,
`plans` keyed by plan id, and the id counter.  The key index
`inventoryKeyIndex` is not materialized: `repairLegacyInventory` rebuilds
it from `inventoryById` on entry to every operation, mapping each
`(class, length)` key to the first row bearing it, which is exactly what
first-match search over the row list computes. -/
structure Store where
  inventory : List InventoryRow
  plans : List (String × MemoryPlan)
  nextInventoryId : Int
deriving DecidableEq

inductive CommitStatus where
  | COMMITTED
  | ALREADY_COMMITTED
deriving DecidableEq

inductive CommitError where
  | notFound
  | conflict
deriving DecidableEq

/-- `this.plans.get(planId)`. -/
def lookupPlan : List (String × MemoryPlan) → String → Option MemoryPlan
  | [], _ => none
  | e :: rest, pid => if e.1 = pid then some e.2 else lookupPlan rest pid

/-- `this.inventoryById.get(sourceId)`. -/
def findRow (inv : List InventoryRow) (sid : Int) : Option InventoryRow :=
  inv.find? (fun row => decide (row.id = sid))

/-- `stock.qty -= requiredCount` on the row object found by id. -/
def decrementRow : List InventoryRow → Int → Int → List InventoryRow
  | [], _, _ => []
  | row :: rest, sid, cnt =>
    if row.id = sid then { row with qty := row.qty - cnt } :: rest
    else row :: decrementRow rest sid cnt

/-- `existing.qty += qty` on the first row with the given
`(class, length)` key; `none` when no such row exists. -/
def mergeInventoryRow : List InventoryRow → InventoryClass → Int → Int → Option (List InventoryRow)
  | [], _, _, _ => none
  | row :: rest, c, len, q =>
    if row.inventoryClass = c ∧ row.lengthMm = len then
      some ({ row with qty := row.qty + q } :: rest)
    else
      (mergeInventoryRow rest c len q).map (row :: ·)

/-- `addInventoryInternal`: merge into the first row with the same
`(class, length)` key, or append a fresh row under `nextInventoryId`. -/
def addInventoryInternal (st : Store) (lengthMm : Int) (qty : Int) (c : InventoryClass) : Store :=
  match mergeInventoryRow st.inventory c lengthMm qty with
  | some inv => { st with inventory := inv }
  | none =>
    { st with
      inventory := st.inventory ++
        [{ id := st.nextInventoryId, inventoryClass := c, lengthMm := lengthMm, qty := qty }]
      nextInventoryId := st.nextInventoryId + 1 }

/-- `summarizeConsumption`: per originating row id, the number of
allocations (bars) referencing it. -/
def summarizeConsumption (allocations : List Allocation) : List (Int × Int) :=
  allocations.foldl (fun m a => tallyIncr m a.stock.sourceId) []

/-- `summarizeRemnants`: kept remnants tallied by `(class, remnant length)`;
`none` models the `ConflictError` thrown when a source row cannot be
resolved to a class. -/
def summarizeRemnants (allocations : List Allocation)
    (resolve : Int → Option InventoryClass) :
    Option (List ((InventoryClass × Int) × Int)) :=
  allocations.foldlM
    (fun m a =>
      if a.remnantKept then
        match resolve a.stock.sourceId with
        | none => none
        | some c => some (tallyIncr m (c, a.remnantMm))
      else
        some m)
    []

/-- `resolveInventoryClass` over a given inventory. -/
def resolveClass (inv : List InventoryRow) (sid : Int) : Option InventoryClass :=
  (findRow inv sid).map (·.inventoryClass)

/-- `plan.status = "COMMITTED"` on the stored plan object. -/
def setPlanStatus (plans : List (String × MemoryPlan)) (pid : String) (s : PlanState) :
    List (String × MemoryPlan) :=
  plans.map (fun e => if e.1 = pid then (e.1, { e.2 with status := s }) else e)

/-- `commitPlan`.  A thrown error is modelled as `.error (kind, state at
the throw)`: the store is in-memory, so mutations made before a throw
survive it; the source throws its conflict checks before any mutation. -/
def commitPlan (st : Store) (planId : String) : Except (CommitError × Store) (CommitStatus × Store) :=
  match lookupPlan st.plans planId with
  | none => .error (.notFound, st)
  | some plan =>
    if plan.status = .COMMITTED then
      .ok (.ALREADY_COMMITTED, st)
    else
      let required := summarizeConsumption plan.result.allocations
      if required.all (fun e =>
          match findRow st.inventory e.1 with
          | none => false
          | some row => decide (e.2 ≤ row.qty)) then
        let inv1 := required.foldl (fun inv e => decrementRow inv e.1 e.2) st.inventory
        match summarizeRemnants plan.result.allocations (resolveClass inv1) with
        | none => .error (.conflict, { st with inventory := inv1 })
        | some rem =>
          let st1 := rem.foldl (fun s e => addInventoryInternal s e.1.2 e.2 e.1.1)
            { st with inventory := inv1 }
          .ok (.COMMITTED, { st1 with plans := setPlanStatus st1.plans planId .COMMITTED })
      else
        .error (.conflict, st)

end MemoryStore

namespace CuttingCore

/-! ### Association-list tally lemmas -/

def totalTally {κ : Type} (m : List (κ × Int)) : Int :=
  (m.map (·.2)).sum

def countKey {κ : Type} [DecidableEq κ] (k : κ) (keys : List κ) : Int :=
  ((keys.filter (fun x => decide (x = k))).length : Int)

theorem lookupTally_tallyIncr {κ : Type} [DecidableEq κ] (m : List (κ × Int)) (k k2 : κ) :
    lookupTally (tallyIncr m k) k2 =
      if k2 = k then some ((lookupTally m k).getD 0 + 1) else lookupTally m k2 := by
  induction m with
  | nil =>
    by_cases h : k2 = k
    · subst h; simp [tallyIncr, lookupTally]
    · simp [tallyIncr, lookupTally, h, Ne.symm h]
  | cons e rest ih =>
    obtain ⟨a, v⟩ := e
    by_cases he : a = k
    · subst he
      by_cases h2 : k2 = a
      · subst h2; simp [tallyIncr, lookupTally]
      · simp [tallyIncr, lookupTally, h2, Ne.symm h2]
    · by_cases h2 : a = k2
      · subst h2
        simp [tallyIncr, lookupTally, he]
      · simp [tallyIncr, lookupTally, he, h2, ih]

theorem totalTally_tallyIncr {κ : Type} [DecidableEq κ] (m : List (κ × Int)) (k : κ) :
    totalTally (tallyIncr m k) = totalTally m + 1 := by
  induction m with
  | nil => simp [tallyIncr, totalTally]
  | cons e rest ih =>
    by_cases he : e.1 = k
    · simp [tallyIncr, totalTally, he]; ring
    · simp [tallyIncr, totalTally, he] at ih ⊢; omega

theorem lookupTally_eq_none_iff {κ : Type} [DecidableEq κ] (m : List (κ × Int)) (k : κ) :
    lookupTally m k = none ↔ k ∉ m.map (·.1) := by
  induction m with
  | nil => simp [lookupTally]
  | cons e rest ih =>
    obtain ⟨a, v⟩ := e
    by_cases he : a = k
    · subst he; simp [lookupTally]
    · simp [lookupTally, he, ih, Ne.symm he]

theorem keys_tallyIncr {κ : Type} [DecidableEq κ] (m : List (κ × Int)) (k : κ) :
    (tallyIncr m k).map (·.1) =
      if k ∈ m.map (·.1) then m.map (·.1) else m.map (·.1) ++ [k] := by
  induction m with
  | nil => simp [tallyIncr]
  | cons e rest ih =>
    obtain ⟨a, v⟩ := e
    by_cases he : a = k
    · subst he; simp [tallyIncr]
    · rw [show tallyIncr ((a, v) :: rest) k = (a, v) :: tallyIncr rest k by
        simp [tallyIncr, he]]
      simp only [List.map_cons, ih]
      by_cases hk : k ∈ rest.map (·.1)
      · simp [hk, Ne.symm he]
      · simp [hk, Ne.symm he]

theorem nodup_keys_tallyIncr {κ : Type} [DecidableEq κ] (m : List (κ × Int)) (k : κ)
    (h : (m.map (·.1)).Nodup) : ((tallyIncr m k).map (·.1)).Nodup := by
  rw [keys_tallyIncr]
  by_cases hk : k ∈ m.map (·.1)
  · simpa [hk] using h
  · rw [if_neg hk, List.nodup_append]
    refine ⟨h, List.nodup_singleton _, ?_⟩
    intro x hx hxk
    rw [List.mem_singleton] at hxk
    exact hk (hxk ▸ hx)

theorem getD_lookupTally_foldl_tallyIncr {κ : Type} [DecidableEq κ]
    (keys : List κ) (m : List (κ × Int)) (k : κ) :
    ((lookupTally (keys.foldl tallyIncr m) k).getD 0) =
      (lookupTally m k).getD 0 + countKey k keys := by
  induction keys generalizing m with
  | nil => simp [countKey]
  | cons a keys ih =>
    rw [List.foldl_cons, ih, lookupTally_tallyIncr]
    by_cases h : k = a
    · subst h; simp [countKey, List.filter_cons]; omega
    · simp [countKey, List.filter_cons, h, Ne.symm h]

theorem nodup_keys_foldl_tallyIncr {κ : Type} [DecidableEq κ]
    (keys : List κ) (m : List (κ × Int)) (h : (m.map (·.1)).Nodup) :
    (((keys.foldl tallyIncr m)).map (·.1)).Nodup := by
  induction keys generalizing m with
  | nil => exact h
  | cons a keys ih => exact ih _ (nodup_keys_tallyIncr _ _ h)

/-! ### Insertion-sort lemmas -/

theorem insertDescBy_perm {α : Type} (key : α → Int) (x : α) (l : List α) :
    (insertDescBy key x l).Perm (x :: l) := by
  induction l with
  | nil => simp [insertDescBy]
  | cons y ys ih =>
    by_cases h : key y < key x
    · simp [insertDescBy, h]
    · simp only [insertDescBy, if_neg h]
      exact (List.Perm.cons y ih).trans (List.Perm.swap x y ys)

theorem sortDescBy_perm {α : Type} (key : α → Int) (l : List α) :
    (sortDescBy key l).Perm l := by
  induction l with
  | nil => simp [sortDescBy]
  | cons x xs ih =>
    exact (insertDescBy_perm key x (sortDescBy key xs)).trans (List.Perm.cons x ih)

theorem sorted_insertDescBy {α : Type} (key : α → Int) (x : α) (l : List α)
    (h : List.Sorted (fun a b => key b ≤ key a) l) :
    List.Sorted (fun a b => key b ≤ key a) (insertDescBy key x l) := by
  induction l with
  | nil => simp [insertDescBy]
  | cons y ys ih =>
    rw [List.sorted_cons] at h
    by_cases hxy : key y < key x
    · rw [insertDescBy, if_pos hxy, List.sorted_cons]
      constructor
      · intro b hb
        rcases List.mem_cons.mp hb with hb | hb
        · subst hb; exact le_of_lt hxy
        · exact le_trans (h.1 b hb) (le_of_lt hxy)
      · rw [List.sorted_cons]; exact h
    · rw [insertDescBy, if_neg hxy, List.sorted_cons]
      constructor
      · intro b hb
        rcases List.mem_cons.mp ((insertDescBy_perm key x ys).mem_iff.mp hb) with hb | hb
        · subst hb; exact le_of_not_lt hxy
        · exact h.1 b hb
      · exact ih h.2

theorem sorted_sortDescBy {α : Type} (key : α → Int) (l : List α) :
    List.Sorted (fun a b => key b ≤ key a) (sortDescBy key l) := by
  induction l with
  | nil => simp [sortDescBy]
  | cons x xs ih => exact sorted_insertDescBy key x _ ih

theorem sortDescBy_head_max {α : Type} (key : α → Int) (l : List α) (h : α) (t : List α)
    (heq : sortDescBy key l = h :: t) : ∀ x ∈ sortDescBy key l, key x ≤ key h := by
  have hs := sorted_sortDescBy key l
  rw [heq] at hs ⊢
  rw [List.sorted_cons] at hs
  intro x hx
  rcases List.mem_cons.mp hx with hx | hx
  · exact le_of_eq (hx ▸ rfl)
  · exact hs.1 x hx

/-! ### Sum lemmas -/

theorem sum_map_set {α : Type} (f : α → Int) (l : List α) (i : Nat) (a bar : α)
    (h : l.get? i = some bar) :
    ((l.set i a).map f).sum = (l.map f).sum - f bar + f a := by
  induction l generalizing i with
  | nil => simp at h
  | cons x xs ih =>
    cases i with
    | zero =>
      simp only [List.get?] at h
      injection h with h; subst h
      simp [List.set]; ring
    | succ n =>
      simp only [List.get?] at h
      have hx := ih n h
      simp only [List.set, List.map_cons, List.sum_cons, hx]
      ring

theorem sum_cuts_filter_nonempty (l : List MutableBar) :
    (((l.filter (fun bar => !bar.cuts.isEmpty)).map (fun bar => (bar.cuts.length : Int))).sum) =
      ((l.map (fun bar => (bar.cuts.length : Int))).sum) := by
  induction l with
  | nil => simp
  | cons b bs ih =>
    by_cases h : b.cuts.isEmpty
    · have hlen : b.cuts.length = 0 := by
        cases hc : b.cuts with
        | nil => rfl
        | cons c cs => rw [hc] at h; simp [List.isEmpty] at h
      simp [List.filter, h, ih, hlen]
    · simp [List.filter, h, ih]

theorem perm_sum_map {α : Type} (f : α → Int) {l l2 : List α} (h : l.Perm l2) :
    (l.map f).sum = (l2.map f).sum :=
  (h.map f).sum_eq

theorem waste_foldl (allocs : List Allocation) (init : Int) :
    allocs.foldl (fun sum item => sum + (if item.remnantKept then 0 else item.remnantMm)) init =
      init + ((allocs.filter (fun a => !a.remnantKept)).map (·.remnantMm)).sum := by
  induction allocs generalizing init with
  | nil => simp
  | cons a as ih =>
    by_cases h : a.remnantKept
    · simp [List.filter, h, ih]
    · simp [List.filter, h, ih]; ring

end CuttingCore

namespace CuttingCore

/-! ### Best-fit scan lemmas -/

theorem findBestIdxGo_eq_none_iff (eff : Int) (bars : List MutableBar) :
    ∀ (i : Nat) (best : Option (Nat × Int)),
      findBestIdxGo eff bars i best = none ↔
        best = none ∧ ∀ b ∈ bars, b.remainingMm < eff := by
  induction bars with
  | nil => intro i best; simp [findBestIdxGo]
  | cons bar rest ih =>
    intro i best
    cases best with
    | none =>
      by_cases hlt : bar.remainingMm < eff
      · rw [findBestIdxGo, if_pos hlt, ih]
        simp [hlt]
      · rw [findBestIdxGo, if_neg hlt, ih]
        simp [hlt]
    | some b =>
      obtain ⟨bi, br⟩ := b
      by_cases hlt : bar.remainingMm < eff
      · rw [findBestIdxGo, if_pos hlt, ih]
        simp
      · rw [findBestIdxGo, if_neg hlt]
        by_cases hbr : bar.remainingMm - eff < br
        · rw [if_pos hbr, ih]; simp
        · rw [if_neg hbr, ih]; simp

theorem findBestIdxGo_spec (eff : Int) (bars : List MutableBar) :
    ∀ (i : Nat) (best : Option (Nat × Int)) (k : Nat) (v : Int),
      findBestIdxGo eff bars i best = some (k, v) →
      (best = some (k, v) ∧ ∀ b ∈ bars, eff ≤ b.remainingMm → v ≤ b.remainingMm - eff)
      ∨ (∃ j bar, bars.get? j = some bar ∧ k = i + j ∧ eff ≤ bar.remainingMm ∧
          v = bar.remainingMm - eff ∧
          (∀ bi br, best = some (bi, br) → v < br) ∧
          (∀ j2 bar2, j2 < j → bars.get? j2 = some bar2 → eff ≤ bar2.remainingMm →
            v < bar2.remainingMm - eff) ∧
          (∀ b ∈ bars, eff ≤ b.remainingMm → v ≤ b.remainingMm - eff)) := by
  induction bars with
  | nil =>
    intro i best k v h
    left
    simp [findBestIdxGo] at h
    simp [h]
  | cons bar rest ih =>
    intro i best k v h
    cases best with
    | none =>
      by_cases hlt : bar.remainingMm < eff
      · rw [findBestIdxGo, if_pos hlt] at h
        rcases ih (i + 1) none k v h with ⟨hb, hall⟩ | ⟨j, barj, hget, hk, hfeas, hv, hbest, hstrict, hall⟩
        · cases hb
        · right
          refine ⟨j + 1, barj, hget, by omega, hfeas, hv, hbest, ?_, ?_⟩
          · intro j2 bar2 hj2 hget2 hfeas2
            cases j2 with
            | zero =>
              simp only [List.get?] at hget2
              injection hget2 with hget2
              subst hget2; omega
            | succ m =>
              exact hstrict m bar2 (by omega) hget2 hfeas2
          · intro b hbmem hbfeas
            rcases List.mem_cons.mp hbmem with hbeq | hbmem
            · subst hbeq; omega
            · exact hall b hbmem hbfeas
      · rw [findBestIdxGo, if_neg hlt] at h
        have hfeasbar : eff ≤ bar.remainingMm := le_of_not_lt hlt
        rcases ih (i + 1) _ k v h with ⟨hb, hall⟩ | ⟨j, barj, hget, hk, hfeas, hv, hbest, hstrict, hall⟩
        · injection hb with hb
          injection hb with hb1 hb2
          right
          refine ⟨0, bar, rfl, by omega, hfeasbar, hb2.symm, ?_, ?_, ?_⟩
          · intro bi br hcon; cases hcon
          · intro j2 bar2 hj2 _ _; omega
          · intro b hbmem hbfeas
            rcases List.mem_cons.mp hbmem with hbeq | hbmem
            · subst hbeq; omega
            · exact hall b hbmem hbfeas
        · have hvlt : v < bar.remainingMm - eff := hbest i (bar.remainingMm - eff) rfl
          right
          refine ⟨j + 1, barj, hget, by omega, hfeas, hv, ?_, ?_, ?_⟩
          · intro bi br hcon; cases hcon
          · intro j2 bar2 hj2 hget2 hfeas2
            cases j2 with
            | zero =>
              simp only [List.get?] at hget2
              injection hget2 with hget2
              subst hget2; omega
            | succ m =>
              exact hstrict m bar2 (by omega) hget2 hfeas2
          · intro b hbmem hbfeas
            rcases List.mem_cons.mp hbmem with hbeq | hbmem
            · subst hbeq; omega
            · exact hall b hbmem hbfeas
    | some best0 =>
      obtain ⟨bi, br⟩ := best0
      by_cases hlt : bar.remainingMm < eff
      · rw [findBestIdxGo, if_pos hlt] at h
        rcases ih (i + 1) _ k v h with ⟨hb, hall⟩ | ⟨j, barj, hget, hk, hfeas, hv, hbest, hstrict, hall⟩
        · left
          refine ⟨hb, ?_⟩
          intro b hbmem hbfeas
          rcases List.mem_cons.mp hbmem with hbeq | hbmem
          · subst hbeq; omega
          · exact hall b hbmem hbfeas
        · right
          refine ⟨j + 1, barj, hget, by omega, hfeas, hv, hbest, ?_, ?_⟩
          · intro j2 bar2 hj2 hget2 hfeas2
            cases j2 with
            | zero =>
              simp only [List.get?] at hget2
              injection hget2 with hget2
              subst hget2; omega
            | succ m =>
              exact hstrict m bar2 (by omega) hget2 hfeas2
          · intro b hbmem hbfeas
            rcases List.mem_cons.mp hbmem with hbeq | hbmem
            · subst hbeq; omega
            · exact hall b hbmem hbfeas
      · rw [findBestIdxGo, if_neg hlt] at h
        have hfeasbar : eff ≤ bar.remainingMm := le_of_not_lt hlt
        by_cases hbr : bar.remainingMm - eff < br
        · rw [if_pos hbr] at h
          rcases ih (i + 1) _ k v h with ⟨hb, hall⟩ | ⟨j, barj, hget, hk, hfeas, hv, hbest, hstrict, hall⟩
          · injection hb with hb
            injection hb with hb1 hb2
            right
            refine ⟨0, bar, rfl, by omega, hfeasbar, hb2.symm, ?_, ?_, ?_⟩
            · intro bi2 br2 hcon
              injection hcon with hcon
              injection hcon with hcon1 hcon2
              omega
            · intro j2 bar2 hj2 _ _; omega
            · intro b hbmem hbfeas
              rcases List.mem_cons.mp hbmem with hbeq | hbmem
              · subst hbeq; omega
              · exact hall b hbmem hbfeas
          · have hvlt : v < bar.remainingMm - eff := hbest i (bar.remainingMm - eff) rfl
            right
            refine ⟨j + 1, barj, hget, by omega, hfeas, hv, ?_, ?_, ?_⟩
            · intro bi2 br2 hcon
              injection hcon with hcon
              injection hcon with hcon1 hcon2
              omega
            · intro j2 bar2 hj2 hget2 hfeas2
              cases j2 with
              | zero =>
                simp only [List.get?] at hget2
                injection hget2 with hget2
                subst hget2; omega
              | succ m =>
                exact hstrict m bar2 (by omega) hget2 hfeas2
            · intro b hbmem hbfeas
              rcases List.mem_cons.mp hbmem with hbeq | hbmem
              · subst hbeq; omega
              · exact hall b hbmem hbfeas
        · rw [if_neg hbr] at h
          rcases ih (i + 1) _ k v h with ⟨hb, hall⟩ | ⟨j, barj, hget, hk, hfeas, hv, hbest, hstrict, hall⟩
          · injection hb with hb
            injection hb with hb1 hb2
            left
            constructor
            · rw [hb1, hb2]
            · intro b hbmem hbfeas
              rcases List.mem_cons.mp hbmem with hbeq | hbmem
              · subst hbeq; omega
              · exact hall b hbmem hbfeas
          · have hvlt : v < br := hbest bi br rfl
            right
            refine ⟨j + 1, barj, hget, by omega, hfeas, hv, ?_, ?_, ?_⟩
            · intro bi2 br2 hcon
              injection hcon with hcon
              injection hcon with hcon1 hcon2
              omega
            · intro j2 bar2 hj2 hget2 hfeas2
              cases j2 with
              | zero =>
                simp only [List.get?] at hget2
                injection hget2 with hget2
                subst hget2; omega
              | succ m =>
                exact hstrict m bar2 (by omega) hget2 hfeas2
            · intro b hbmem hbfeas
              rcases List.mem_cons.mp hbmem with hbeq | hbmem
              · subst hbeq; omega
              · exact hall b hbmem hbfeas

theorem findBestIdx_spec (bars : List MutableBar) (eff : Int) (k : Nat)
    (h : findBestIdx bars eff = some k) :
    ∃ bar, bars.get? k = some bar ∧ eff ≤ bar.remainingMm ∧
      (∀ j bar2, bars.get? j = some bar2 → eff ≤ bar2.remainingMm →
        bar.remainingMm ≤ bar2.remainingMm) ∧
      (∀ j bar2, j < k → bars.get? j = some bar2 → eff ≤ bar2.remainingMm →
        bar.remainingMm < bar2.remainingMm) := by
  rw [findBestIdx] at h
  cases hgo : findBestIdxGo eff bars 0 none with
  | none => rw [hgo] at h; cases h
  | some kv =>
    obtain ⟨k0, v⟩ := kv
    rw [hgo] at h
    injection h with h
    subst h
    rcases findBestIdxGo_spec eff bars 0 none k0 v hgo with ⟨hcon, _⟩ | ⟨j, bar, hget, hk, hfeas, hv, _, hstrict, hall⟩
    · cases hcon
    · have hkj : k0 = j := by omega
      subst hkj
      refine ⟨bar, hget, hfeas, ?_, ?_⟩
      · intro j2 bar2 hget2 hfeas2
        have := hall bar2 (List.get?_mem hget2) hfeas2
        omega
      · intro j2 bar2 hj2 hget2 hfeas2
        have := hstrict j2 bar2 hj2 hget2 hfeas2
        omega

theorem findBestIdx_eq_none_iff (bars : List MutableBar) (eff : Int) :
    findBestIdx bars eff = none ↔ ∀ b ∈ bars, b.remainingMm < eff := by
  rw [findBestIdx, Option.map_eq_none', findBestIdxGo_eq_none_iff]
  simp

end CuttingCore

namespace CuttingCore

/-! ### Allocation-loop lemmas -/

theorem allocStep_eq_none (p : PlanParams) (st : List MutableBar × List (Int × Int)) (piece : Int)
    (h : findBestIdx st.1 (piece + p.allowanceMm + p.kerfMm) = none) :
    allocStep p st piece = (st.1, tallyIncr st.2 piece) := by
  rw [allocStep, h]

theorem allocStep_eq_some (p : PlanParams) (st : List MutableBar × List (Int × Int)) (piece : Int)
    (i : Nat) (bar : MutableBar)
    (hfind : findBestIdx st.1 (piece + p.allowanceMm + p.kerfMm) = some i)
    (hget : st.1.get? i = some bar) :
    allocStep p st piece =
      (st.1.set i
        { bar with
          cuts := bar.cuts ++
            [{ pieceMm := piece, effectiveMm := piece + p.allowanceMm + p.kerfMm }]
          remainingMm := bar.remainingMm - (piece + p.allowanceMm + p.kerfMm) }, st.2) := by
  rw [allocStep, hfind]
  dsimp only
  rw [hget]

def cutsMeasure (bars : List MutableBar) : Int :=
  (bars.map (fun bar => (bar.cuts.length : Int))).sum

/-- The conserved piece count: every loop iteration either records one cut
or tallies one missing piece. -/
theorem allocStep_measure (p : PlanParams) (st : List MutableBar × List (Int × Int)) (piece : Int) :
    cutsMeasure (allocStep p st piece).1 + totalTally (allocStep p st piece).2 =
      cutsMeasure st.1 + totalTally st.2 + 1 := by
  cases hfind : findBestIdx st.1 (piece + p.allowanceMm + p.kerfMm) with
  | none =>
    rw [allocStep_eq_none p st piece hfind]
    simp only [totalTally_tallyIncr]
    ring
  | some i =>
    obtain ⟨bar, hget, -, -, -⟩ := findBestIdx_spec st.1 _ i hfind
    rw [allocStep_eq_some p st piece i bar hfind hget]
    simp only [cutsMeasure]
    rw [sum_map_set _ _ _ _ _ hget]
    simp
    ring

theorem foldl_allocStep_measure (p : PlanParams) (pieces : List Int) :
    ∀ st : List MutableBar × List (Int × Int),
      cutsMeasure (pieces.foldl (allocStep p) st).1 + totalTally (pieces.foldl (allocStep p) st).2 =
        cutsMeasure st.1 + totalTally st.2 + pieces.length := by
  induction pieces with
  | nil => intro st; simp
  | cons piece rest ih =>
    intro st
    rw [List.foldl_cons, ih, allocStep_measure]
    simp only [List.length_cons]
    push_cast
    ring

/-- The bar invariant of the loop: leftover material is non-negative and
consumed material is exactly the sum of the recorded effective lengths. -/
def BarInv (b : MutableBar) : Prop :=
  0 ≤ b.remainingMm ∧
    b.originalMm - b.remainingMm = (b.cuts.map (·.effectiveMm)).sum

theorem expandInventory_barInv (items : List InventoryItem) :
    ∀ b ∈ expandInventory items, BarInv b := by
  intro b hb
  rw [expandInventory, List.mem_flatten] at hb
  obtain ⟨s, hs, hbs⟩ := hb
  rw [List.mem_map] at hs
  obtain ⟨item, -, hitem⟩ := hs
  rw [← hitem] at hbs
  have := List.eq_of_mem_replicate hbs
  subst this
  constructor
  · show 0 ≤ toNonNegativeInt item.lengthMm
    cases hl : item.lengthMm with
    | none => simp [toNonNegativeInt]
    | some v => simp [toNonNegativeInt]
  · simp

theorem allocStep_preserves_barInv (p : PlanParams)
    (st : List MutableBar × List (Int × Int)) (piece : Int)
    (h : ∀ b ∈ st.1, BarInv b) : ∀ b ∈ (allocStep p st piece).1, BarInv b := by
  intro b hb
  cases hfind : findBestIdx st.1 (piece + p.allowanceMm + p.kerfMm) with
  | none =>
    rw [allocStep_eq_none p st piece hfind] at hb
    exact h b hb
  | some i =>
    obtain ⟨bar, hget, hfeas, -, -⟩ := findBestIdx_spec st.1 _ i hfind
    rw [allocStep_eq_some p st piece i bar hfind hget] at hb
    rcases List.mem_or_eq_of_mem_set hb with hb | hb
    · exact h b hb
    · subst hb
      obtain ⟨hnn, hsum⟩ := h bar (List.get?_mem hget)
      constructor
      · show 0 ≤ bar.remainingMm - (piece + p.allowanceMm + p.kerfMm)
        omega
      · show bar.originalMm - (bar.remainingMm - (piece + p.allowanceMm + p.kerfMm)) =
          ((bar.cuts ++
            [({ pieceMm := piece, effectiveMm := piece + p.allowanceMm + p.kerfMm } : CutPiece)]).map
              (·.effectiveMm)).sum
        rw [List.map_append, List.sum_append]
        simp only [List.map_cons, List.map_nil, List.sum_cons, List.sum_nil]
        omega

theorem foldl_allocStep_preserves_barInv (p : PlanParams) (pieces : List Int) :
    ∀ st : List MutableBar × List (Int × Int), (∀ b ∈ st.1, BarInv b) →
      ∀ b ∈ (pieces.foldl (allocStep p) st).1, BarInv b := by
  induction pieces with
  | nil => intro st h; exact h
  | cons piece rest ih =>
    intro st h
    exact ih _ (allocStep_preserves_barInv p st piece h)

end CuttingCore

namespace MemoryStore

open CuttingCore

/-! ### Store lemmas -/

theorem addInventoryInternal_plans (st : Store) (lengthMm qty : Int) (c : InventoryClass) :
    (addInventoryInternal st lengthMm qty c).plans = st.plans := by
  rw [addInventoryInternal]
  cases mergeInventoryRow st.inventory c lengthMm qty <;> rfl

theorem foldl_addInventoryInternal_plans
    (rem : List ((InventoryClass × Int) × Int)) :
    ∀ st : Store,
      (rem.foldl (fun s e => addInventoryInternal s e.1.2 e.2 e.1.1) st).plans = st.plans := by
  induction rem with
  | nil => intro st; rfl
  | cons e rest ih =>
    intro st
    rw [List.foldl_cons, ih, addInventoryInternal_plans]

theorem lookupPlan_setPlanStatus (plans : List (String × MemoryPlan)) (pid : String)
    (s : PlanState) :
    lookupPlan (setPlanStatus plans pid s) pid =
      (lookupPlan plans pid).map (fun p => { p with status := s }) := by
  induction plans with
  | nil => rfl
  | cons e rest ih =>
    by_cases he : e.1 = pid
    · simp [setPlanStatus, lookupPlan, he]
    · simp only [setPlanStatus, List.map_cons, if_neg he]
      rw [lookupPlan, if_neg he, lookupPlan, if_neg he]
      simpa [setPlanStatus] using ih

/-- Eliminate a successful first commit: recover the branch conditions and
the shape of the resulting store. -/
theorem commitPlan_ok_committed_elim (st : Store) (pid : String) (st1 : Store)
    (h : commitPlan st pid = .ok (.COMMITTED, st1)) :
    ∃ plan rem,
      lookupPlan st.plans pid = some plan ∧
      plan.status = .PLANNED ∧
      (summarizeConsumption plan.result.allocations).all (fun e =>
        match findRow st.inventory e.1 with
        | none => false
        | some row => decide (e.2 ≤ row.qty)) = true ∧
      summarizeRemnants plan.result.allocations
        (resolveClass ((summarizeConsumption plan.result.allocations).foldl
          (fun inv e => decrementRow inv e.1 e.2) st.inventory)) = some rem ∧
      st1.plans = setPlanStatus st.plans pid .COMMITTED ∧
      st1.inventory =
        (rem.foldl (fun s e => addInventoryInternal s e.1.2 e.2 e.1.1)
          { st with
            inventory := (summarizeConsumption plan.result.allocations).foldl
              (fun inv e => decrementRow inv e.1 e.2) st.inventory }).inventory := by
  rw [commitPlan] at h
  cases hlp : lookupPlan st.plans pid with
  | none => rw [hlp] at h; cases h
  | some plan =>
    rw [hlp] at h
    dsimp only at h
    by_cases hst : plan.status = .COMMITTED
    · rw [if_pos hst] at h
      injection h with h
      injection h with h1 h2
      cases h1
    · rw [if_neg hst] at h
      have hplanned : plan.status = .PLANNED := by
        cases hs : plan.status
        · rfl
        · exact absurd hs hst
      by_cases hchk : (summarizeConsumption plan.result.allocations).all (fun e =>
          match findRow st.inventory e.1 with
          | none => false
          | some row => decide (e.2 ≤ row.qty)) = true
      · rw [if_pos hchk] at h
        cases hrem : summarizeRemnants plan.result.allocations
            (resolveClass ((summarizeConsumption plan.result.allocations).foldl
              (fun inv e => decrementRow inv e.1 e.2) st.inventory)) with
        | none => rw [hrem] at h; cases h
        | some rem =>
          rw [hrem] at h
          dsimp only at h
          injection h with h
          injection h with h1 h2
          refine ⟨plan, rem, rfl, hplanned, hchk, hrem, ?_, ?_⟩
          · rw [← h2]
            dsimp only
            rw [foldl_addInventoryInternal_plans]
          · rw [← h2]
      · rw [if_neg hchk] at h
        cases h

/-- A `NotFound` commit: unknown plan id, store untouched. -/
theorem commitPlan_notFound (st : Store) (pid : String)
    (h : lookupPlan st.plans pid = none) :
    commitPlan st pid = .error (.notFound, st) := by
  rw [commitPlan, h]

/-- An already committed plan: report `ALREADY_COMMITTED`, store untouched. -/
theorem commitPlan_alreadyCommitted (st : Store) (pid : String) (plan : MemoryPlan)
    (hlp : lookupPlan st.plans pid = some plan) (hst : plan.status = .COMMITTED) :
    commitPlan st pid = .ok (.ALREADY_COMMITTED, st) := by
  rw [commitPlan, hlp]
  dsimp only
  rw [if_pos hst]

/-- A conflicting commit: some required row is short, everything untouched. -/
theorem commitPlan_conflict (st : Store) (pid : String) (plan : MemoryPlan)
    (hlp : lookupPlan st.plans pid = some plan) (hst : plan.status = .PLANNED)
    (hbad : ∃ sid cnt row, (sid, cnt) ∈ summarizeConsumption plan.result.allocations ∧
      findRow st.inventory sid = some row ∧ row.qty < cnt) :
    commitPlan st pid = .error (.conflict, st) := by
  rw [commitPlan, hlp]
  dsimp only
  rw [if_neg (by rw [hst]; intro hcon; cases hcon)]
  have hchk : ¬ ((summarizeConsumption plan.result.allocations).all (fun e =>
      match findRow st.inventory e.1 with
      | none => false
      | some row => decide (e.2 ≤ row.qty)) = true) := by
    intro hall
    obtain ⟨sid, cnt, row, hmem, hrow, hlt⟩ := hbad
    have := List.all_eq_true.mp hall (sid, cnt) hmem
    rw [hrow] at this
    simp at this
    omega
  rw [if_neg hchk]

/-- Spec-side count: the number of allocations referencing a row id. -/
def countRefs (allocs : List Allocation) (sid : Int) : Int :=
  ((allocs.filter (fun a => decide (a.stock.sourceId = sid))).length : Int)

/-- Spec-side consumption: every row loses one unit per allocation that
references it. -/
def consumeSpec (inv : List InventoryRow) (allocs : List Allocation) : List InventoryRow :=
  inv.map (fun row => { row with qty := row.qty - countRefs allocs row.id })

/-- Spec-side count of kept remnants of a given class and length. -/
def countKeptRemnants (allocs : List Allocation) (resolve : Int → Option InventoryClass)
    (c : InventoryClass) (L : Int) : Int :=
  ((allocs.filter (fun a =>
    a.remnantKept && decide (a.remnantMm = L) && decide (resolve a.stock.sourceId = some c))).length : Int)

theorem summarizeConsumption_eq_foldl_map (allocs : List Allocation) :
    summarizeConsumption allocs =
      (allocs.map (fun a => a.stock.sourceId)).foldl tallyIncr [] := by
  rw [List.foldl_map]
  rfl

theorem getD_lookup_summarizeConsumption (allocs : List Allocation) (sid : Int) :
    (lookupTally (summarizeConsumption allocs) sid).getD 0 = countRefs allocs sid := by
  rw [summarizeConsumption_eq_foldl_map, getD_lookupTally_foldl_tallyIncr]
  rw [show lookupTally ([] : List (Int × Int)) sid = none from rfl]
  rw [countRefs, countKey, List.filter_map]
  simp only [Option.getD_none, List.length_map, zero_add, Nat.cast_inj]
  rfl

theorem nodup_keys_summarizeConsumption (allocs : List Allocation) :
    ((summarizeConsumption allocs).map (·.1)).Nodup := by
  rw [summarizeConsumption_eq_foldl_map]
  exact nodup_keys_foldl_tallyIncr _ [] (by simp)

theorem map_decrement_id_of_absent (inv : List InventoryRow) (sid cnt : Int)
    (h : ∀ r ∈ inv, r.id ≠ sid) :
    inv.map (fun row => if row.id = sid then { row with qty := row.qty - cnt } else row) = inv := by
  have := List.map_congr_left (l := inv)
    (f := fun row => if row.id = sid then { row with qty := row.qty - cnt } else row)
    (g := id) (fun r hr => by simp [h r hr])
  simpa using this

theorem decrementRow_eq_map (inv : List InventoryRow) (sid cnt : Int)
    (hn : (inv.map (·.id)).Nodup) :
    decrementRow inv sid cnt =
      inv.map (fun row => if row.id = sid then { row with qty := row.qty - cnt } else row) := by
  induction inv with
  | nil => rfl
  | cons row rest ih =>
    rw [List.map_cons, List.nodup_cons] at hn
    by_cases h : row.id = sid
    · rw [decrementRow, if_pos h, List.map_cons, if_pos h]
      rw [map_decrement_id_of_absent rest sid cnt]
      intro r hr hrid
      apply hn.1
      rw [h, ← hrid]
      exact List.mem_map_of_mem _ hr
    · rw [decrementRow, if_neg h, List.map_cons, if_neg h, ih hn.2]

theorem ids_map_decrement (inv : List InventoryRow) (sid cnt : Int) :
    (inv.map (fun row =>
      if row.id = sid then { row with qty := row.qty - cnt } else row)).map (·.id) =
      inv.map (·.id) := by
  rw [List.map_map]
  apply List.map_congr_left
  intro r hr
  by_cases h : r.id = sid <;> simp [h]

theorem foldl_decrementRow_eq_map (entries : List (Int × Int)) :
    ∀ inv : List InventoryRow, (inv.map (·.id)).Nodup → ((entries.map (·.1)).Nodup) →
      entries.foldl (fun inv e => decrementRow inv e.1 e.2) inv =
        inv.map (fun row => { row with qty := row.qty - (lookupTally entries row.id).getD 0 }) := by
  induction entries with
  | nil =>
    intro inv hninv hnk
    have := List.map_congr_left (l := inv)
      (f := fun row => { row with qty := row.qty - (lookupTally ([] : List (Int × Int)) row.id).getD 0 })
      (g := id) (fun r hr => by simp [lookupTally])
    simpa using this.symm
  | cons e entries ih =>
    intro inv hninv hnk
    rw [List.map_cons, List.nodup_cons] at hnk
    rw [List.foldl_cons, decrementRow_eq_map inv e.1 e.2 hninv,
      ih _ (by rw [ids_map_decrement]; exact hninv) hnk.2, List.map_map]
    apply List.map_congr_left
    intro row hrow
    by_cases h : row.id = e.1
    · have hnone : lookupTally entries row.id = none := by
        rw [h]
        exact (lookupTally_eq_none_iff entries e.1).mpr hnk.1
      simp only [Function.comp_apply, if_pos h]
      show (⟨row.id, row.inventoryClass, row.lengthMm,
          row.qty - e.2 - (lookupTally entries row.id).getD 0⟩ : InventoryRow) =
        ⟨row.id, row.inventoryClass, row.lengthMm,
          row.qty - (lookupTally (e :: entries) row.id).getD 0⟩
      rw [lookupTally, if_pos h.symm, hnone]
      simp
    · simp only [Function.comp_apply, if_neg h]
      show (⟨row.id, row.inventoryClass, row.lengthMm,
          row.qty - (lookupTally entries row.id).getD 0⟩ : InventoryRow) =
        ⟨row.id, row.inventoryClass, row.lengthMm,
          row.qty - (lookupTally (e :: entries) row.id).getD 0⟩
      rw [lookupTally, if_neg (fun hh => h hh.symm)]

theorem consumeSpec_eq_foldl (st : Store) (allocs : List Allocation)
    (hninv : (st.inventory.map (·.id)).Nodup) :
    (summarizeConsumption allocs).foldl (fun inv e => decrementRow inv e.1 e.2) st.inventory =
      consumeSpec st.inventory allocs := by
  rw [foldl_decrementRow_eq_map _ _ hninv (nodup_keys_summarizeConsumption allocs), consumeSpec]
  apply List.map_congr_left
  intro row hrow
  rw [getD_lookup_summarizeConsumption]

theorem summarizeRemnantsAux_lookup (resolve : Int → Option InventoryClass) :
    ∀ (allocs : List Allocation) (m rem : List ((InventoryClass × Int) × Int)),
      List.foldlM
        (fun m a =>
          if a.remnantKept then
            match resolve a.stock.sourceId with
            | none => none
            | some c => some (tallyIncr m (c, a.remnantMm))
          else
            some m)
        m allocs = some rem →
      ∀ (c : InventoryClass) (L : Int),
        (lookupTally rem (c, L)).getD 0 =
          (lookupTally m (c, L)).getD 0 + countKeptRemnants allocs resolve c L := by
  intro allocs
  induction allocs with
  | nil =>
    intro m rem h c L
    simp only [List.foldlM_nil] at h
    injection h with h
    subst h
    simp [countKeptRemnants]
  | cons a allocs ih =>
    intro m rem h c L
    rw [List.foldlM_cons] at h
    cases hk : a.remnantKept with
    | false =>
      rw [if_neg (by rw [hk]; exact Bool.false_ne_true)] at h
      simp only [Option.bind_eq_bind, Option.some_bind] at h
      rw [ih m rem h c L]
      simp only [countKeptRemnants, List.filter_cons]
      rw [if_neg (by rw [hk]; simp)]
    | true =>
      rw [if_pos (by rw [hk])] at h
      cases hres : resolve a.stock.sourceId with
      | none =>
        rw [hres] at h
        simp at h
      | some c2 =>
        rw [hres] at h
        simp only [Option.bind_eq_bind, Option.some_bind] at h
        rw [ih _ rem h c L, lookupTally_tallyIncr]
        by_cases hmatch : (c, L) = (c2, a.remnantMm)
        · rw [if_pos hmatch]
          injection hmatch with h1 h2
          subst h1
          subst h2
          simp only [countKeptRemnants, List.filter_cons]
          rw [if_pos (by rw [hk, hres]; simp)]
          simp only [Option.getD_some, List.length_cons]
          push_cast
          omega
        · rw [if_neg hmatch]
          simp only [countKeptRemnants, List.filter_cons]
          rw [if_neg (by
            intro hc
            simp only [hres, Bool.and_eq_true, decide_eq_true_eq, Option.some_inj] at hc
            exact hmatch (by rw [hc.1.2, hc.2]))]

theorem summarizeRemnants_lookup (allocs : List Allocation)
    (resolve : Int → Option InventoryClass) (rem : List ((InventoryClass × Int) × Int))
    (h : summarizeRemnants allocs resolve = some rem) (c : InventoryClass) (L : Int) :
    (lookupTally rem (c, L)).getD 0 = countKeptRemnants allocs resolve c L := by
  have := summarizeRemnantsAux_lookup resolve allocs [] rem h c L
  simpa [lookupTally] using this

end MemoryStore

namespace CuttingCore

/-! ### Bridge lemmas for the engine result -/

theorem countOf_eq_filter_length (l : List Int) (target : Int) :
    countOf l target = ((l.filter (fun x => decide (x = target))).length : Int) := by
  induction l with
  | nil => rfl
  | cons v rest ih =>
    rw [countOf, List.filter_cons, ih]
    by_cases h : v = target
    · simp [h]
      omega
    · simp [h]

theorem cutsMeasure_expandInventory (items : List InventoryItem) :
    cutsMeasure (expandInventory items) = 0 := by
  rw [cutsMeasure]
  apply List.sum_eq_zero
  intro x hx
  rw [List.mem_map] at hx
  obtain ⟨bar, hbar, hx⟩ := hx
  rw [expandInventory, List.mem_flatten] at hbar
  obtain ⟨s, hs, hbs⟩ := hbar
  rw [List.mem_map] at hs
  obtain ⟨item, -, hitem⟩ := hs
  rw [← hitem] at hbs
  have := List.eq_of_mem_replicate hbs
  subst this
  simp at hx
  omega

theorem buildPlanFromPieces_nil (inv : List InventoryItem) (p : PlanParams) :
    buildPlanFromPieces inv [] p =
      ⟨.SUCCESS, [], [], [], ⟨0, 0, 0⟩⟩ := rfl

theorem buildPlanFromPieces_cons_short (inv : List InventoryItem) (longest : Int)
    (rest : List Int) (p : PlanParams)
    (h : maxStockLen inv < longest + p.allowanceMm + p.kerfMm) :
    buildPlanFromPieces inv (longest :: rest) p =
      ⟨.FAIL, summarizePieces (longest :: rest), [],
        [⟨longest, countOf (longest :: rest) longest,
          if longest + p.allowanceMm ≤ maxStockLen inv then
            .KERF_ALLOWANCE_MAKES_IT_IMPOSSIBLE
          else
            .NO_STOCK_LONG_ENOUGH⟩],
        ⟨(((longest :: rest).length : Nat) : Int), 0, 0⟩⟩ := by
  rw [buildPlanFromPieces]
  dsimp only
  rw [if_pos h]

end CuttingCore

namespace CuttingCore

/-- Abstract reading of the status expression the engine computes. -/
theorem planStatus_cases (r : CutPlanResult)
    (hstat : r.status =
      if r.shortage.length = 0 then PlanStatus.SUCCESS
      else if 0 < r.allocations.length then PlanStatus.PARTIAL
      else PlanStatus.FAIL) :
    (r.shortage = [] → r.status = .SUCCESS) ∧
    (r.shortage ≠ [] → r.allocations ≠ [] → r.status = .PARTIAL) ∧
    (r.shortage ≠ [] → r.allocations = [] → r.status = .FAIL) := by
  refine ⟨?_, ?_, ?_⟩
  · intro hS
    rw [hstat, if_pos (by rw [hS]; rfl)]
  · intro hS hA
    rw [hstat, if_neg (fun hlen => hS (List.length_eq_zero.mp hlen)),
      if_pos (List.length_pos.mpr hA)]
  · intro hS hA
    rw [hstat, if_neg (fun hlen => hS (List.length_eq_zero.mp hlen)),
      if_neg (by rw [hA]; simp)]

/-! ### Claim theorems for the allocation engine -/

/-- C2: when the sanitized piece list is non-empty and the longest piece's
effective length (piece + allowance + kerf) exceeds the maximum inventory
bar length, the engine short-circuits: status `FAIL`, no allocations, one
`ShortageItem` for the longest piece whose `missingCount` is the number of
pieces sharing that length, reason `KERF_ALLOWANCE_MAKES_IT_IMPOSSIBLE`
when the allowance-augmented length still fits and `NO_STOCK_LONG_ENOUGH`
otherwise, and stats report zero bars used and zero waste. -/
theorem C2_short_circuit_fail (inventoryItems : List InventoryItem)
    (piecesMm : List (Option Int)) (params : Option PartialPlanParams)
    (longest : Int) (rest : List Int)
    (hps : sortedSanitizedPieces piecesMm = longest :: rest)
    (hbig : maxStockLen inventoryItems <
      longest + (normalizePlanParams params).allowanceMm + (normalizePlanParams params).kerfMm) :
    (buildCutPlanBFDForPieces inventoryItems piecesMm params).status = .FAIL ∧
    (buildCutPlanBFDForPieces inventoryItems piecesMm params).allocations = [] ∧
    (buildCutPlanBFDForPieces inventoryItems piecesMm params).shortage =
      [⟨longest, countOf (longest :: rest) longest,
        if longest + (normalizePlanParams params).allowanceMm ≤ maxStockLen inventoryItems then
          .KERF_ALLOWANCE_MAKES_IT_IMPOSSIBLE
        else
          .NO_STOCK_LONG_ENOUGH⟩] ∧
    (buildCutPlanBFDForPieces inventoryItems piecesMm params).stats.totalUsedStocks = 0 ∧
    (buildCutPlanBFDForPieces inventoryItems piecesMm params).stats.totalWasteMm = 0 ∧
    (∀ x ∈ sortedSanitizedPieces piecesMm, x ≤ longest) ∧
    countOf (longest :: rest) longest =
      (((longest :: rest).filter (fun x => decide (x = longest))).length : Int) := by
  have hps2 := hps
  rw [sortedSanitizedPieces] at hps2
  have hmax : ∀ x ∈ longest :: rest, x ≤ longest := by
    intro x hx
    exact sortDescBy_head_max (fun x => x) _ longest rest hps2 x (hps2.symm ▸ hx)
  rw [buildCutPlanBFDForPieces, hps, buildPlanFromPieces_cons_short _ _ _ _ hbig]
  exact ⟨rfl, rfl, rfl, rfl, rfl, hmax, countOf_eq_filter_length _ _⟩

/-- C4: in every returned allocation, the remnant is kept exactly when it
reaches the configured minimum, and the reported total waste is the sum of
the remnant lengths of the allocations whose remnant is not kept. -/
theorem C4_remnant_and_waste (inventoryItems : List InventoryItem)
    (piecesMm : List (Option Int)) (params : Option PartialPlanParams) :
    (∀ a ∈ (buildCutPlanBFDForPieces inventoryItems piecesMm params).allocations,
      a.remnantKept = true ↔ (normalizePlanParams params).minRemnantMm ≤ a.remnantMm) ∧
    (buildCutPlanBFDForPieces inventoryItems piecesMm params).stats.totalWasteMm =
      (((buildCutPlanBFDForPieces inventoryItems piecesMm params).allocations.filter
        (fun a => !a.remnantKept)).map (·.remnantMm)).sum := by
  rw [buildCutPlanBFDForPieces]
  cases hps : sortedSanitizedPieces piecesMm with
  | nil =>
    rw [buildPlanFromPieces_nil]
    exact ⟨fun a ha => absurd ha (List.not_mem_nil a), rfl⟩
  | cons longest rest =>
    by_cases hshort : maxStockLen inventoryItems <
        longest + (normalizePlanParams params).allowanceMm + (normalizePlanParams params).kerfMm
    · rw [buildPlanFromPieces_cons_short _ _ _ _ hshort]
      exact ⟨fun a ha => absurd ha (List.not_mem_nil a), rfl⟩
    · rw [buildPlanFromPieces]
      dsimp only
      rw [if_neg hshort]
      constructor
      · intro a ha
        rw [List.mem_map] at ha
        obtain ⟨bar, hbar, ha⟩ := ha
        rw [← ha]
        simp
      · rw [waste_foldl]
        rw [zero_add]

/-- C5: the plan status is exactly determined by the outcome: empty piece
list gives a `SUCCESS` result with all-zero stats and empty lists;
otherwise `SUCCESS` exactly when there is no shortage, `PARTIAL` when
there is shortage alongside at least one allocation, and `FAIL` when
there is shortage and no allocation. -/
theorem C5_status_determination (inventoryItems : List InventoryItem)
    (piecesMm : List (Option Int)) (params : Option PartialPlanParams) :
    (sortedSanitizedPieces piecesMm = [] →
      buildCutPlanBFDForPieces inventoryItems piecesMm params =
        ⟨.SUCCESS, [], [], [], ⟨0, 0, 0⟩⟩) ∧
    ((buildCutPlanBFDForPieces inventoryItems piecesMm params).shortage = [] →
      (buildCutPlanBFDForPieces inventoryItems piecesMm params).status = .SUCCESS) ∧
    ((buildCutPlanBFDForPieces inventoryItems piecesMm params).shortage ≠ [] →
      (buildCutPlanBFDForPieces inventoryItems piecesMm params).allocations ≠ [] →
      (buildCutPlanBFDForPieces inventoryItems piecesMm params).status = .PARTIAL) ∧
    ((buildCutPlanBFDForPieces inventoryItems piecesMm params).shortage ≠ [] →
      (buildCutPlanBFDForPieces inventoryItems piecesMm params).allocations = [] →
      (buildCutPlanBFDForPieces inventoryItems piecesMm params).status = .FAIL) := by
  rw [buildCutPlanBFDForPieces]
  cases hps : sortedSanitizedPieces piecesMm with
  | nil =>
    rw [buildPlanFromPieces_nil]
    refine ⟨fun _ => rfl, fun _ => rfl, fun hS _ => absurd rfl hS, fun hS _ => absurd rfl hS⟩
  | cons longest rest =>
    by_cases hshort : maxStockLen inventoryItems <
        longest + (normalizePlanParams params).allowanceMm + (normalizePlanParams params).kerfMm
    · rw [buildPlanFromPieces_cons_short _ _ _ _ hshort]
      refine ⟨fun hcon => absurd hcon (List.cons_ne_nil _ _), ?_, ?_, fun _ _ => rfl⟩
      · intro hS
        exact absurd hS (List.cons_ne_nil _ _)
      · intro _ hA
        exact absurd rfl hA
    · rw [buildPlanFromPieces]
      dsimp only
      rw [if_neg hshort]
      have hcases := planStatus_cases
        (buildPlanFromPieces inventoryItems (longest :: rest) (normalizePlanParams params))
        (by
          rw [buildPlanFromPieces]
          rw [if_neg hshort])
      rw [buildPlanFromPieces] at hcases
      dsimp only at hcases
      rw [if_neg hshort] at hcases
      exact ⟨fun hcon => absurd hcon (List.cons_ne_nil _ _), hcases.1, hcases.2.1, hcases.2.2⟩

end CuttingCore

namespace CuttingCore

/-- C1 (amended): outside the short-circuit branch the piece count is
conserved — allocated cuts plus missing counts equal `totalPieces`; in the
short-circuit branch there are no allocations and the single shortage item
reports only the pieces sharing the longest length. -/
theorem C1_piece_conservation (inventoryItems : List InventoryItem)
    (piecesMm : List (Option Int)) (params : Option PartialPlanParams) :
    ((sortedSanitizedPieces piecesMm = [] ∨
      ∃ longest rest, sortedSanitizedPieces piecesMm = longest :: rest ∧
        longest + (normalizePlanParams params).allowanceMm + (normalizePlanParams params).kerfMm ≤
          maxStockLen inventoryItems) →
      ((buildCutPlanBFDForPieces inventoryItems piecesMm params).allocations.map
        (fun a => (a.cuts.length : Int))).sum +
        ((buildCutPlanBFDForPieces inventoryItems piecesMm params).shortage.map
          (·.missingCount)).sum =
        (buildCutPlanBFDForPieces inventoryItems piecesMm params).stats.totalPieces) ∧
    (∀ longest rest, sortedSanitizedPieces piecesMm = longest :: rest →
      maxStockLen inventoryItems <
        longest + (normalizePlanParams params).allowanceMm + (normalizePlanParams params).kerfMm →
      (buildCutPlanBFDForPieces inventoryItems piecesMm params).allocations = [] ∧
      ((buildCutPlanBFDForPieces inventoryItems piecesMm params).shortage.map
        (·.missingCount)).sum = countOf (longest :: rest) longest) := by
  constructor
  · intro hmain
    rw [buildCutPlanBFDForPieces]
    rcases hmain with hnil | ⟨longest, rest, hps, hfit⟩
    · rw [hnil, buildPlanFromPieces_nil]
      rfl
    · rw [hps, buildPlanFromPieces]
      dsimp only
      rw [if_neg (not_lt.mpr hfit)]
      rw [List.map_map, List.map_map]
      simp only [Function.comp_def]
      rw [sum_cuts_filter_nonempty,
        perm_sum_map (fun e : Int × Int => e.2) (sortDescBy_perm (fun e => e.1) _)]
      have hm := foldl_allocStep_measure (normalizePlanParams params) (longest :: rest)
        (expandInventory inventoryItems, [])
      rw [cutsMeasure, totalTally, cutsMeasure_expandInventory] at hm
      dsimp only at hm
      rw [show totalTally ([] : List (Int × Int)) = 0 from rfl] at hm
      omega
  · intro longest rest hps hbig
    rw [buildCutPlanBFDForPieces, hps, buildPlanFromPieces_cons_short _ _ _ _ hbig]
    exact ⟨rfl, by simp⟩

/-- C1 as frozen fails on the code: with no inventory and two pieces of
distinct lengths the short-circuit branch reports a missing count of 1
for the longest piece only, while `totalPieces` is 2. -/
theorem C1_counterexample_concrete :
    ¬ (((buildCutPlanBFDForPieces [] [some 100, some 50]
        (some ⟨some 0, some 0, some 0, some 0⟩)).allocations.map
          (fun a => (a.cuts.length : Int))).sum +
      ((buildCutPlanBFDForPieces [] [some 100, some 50]
        (some ⟨some 0, some 0, some 0, some 0⟩)).shortage.map (·.missingCount)).sum =
      (buildCutPlanBFDForPieces [] [some 100, some 50]
        (some ⟨some 0, some 0, some 0, some 0⟩)).stats.totalPieces) := by
  decide

theorem C1_piece_conservation_witness :
    ((buildCutPlanBFDForPieces [⟨1, some 5000, some 1⟩] [some 100]
      (some ⟨some 0, some 0, some 0, some 0⟩)).allocations.map
        (fun a => (a.cuts.length : Int))).sum +
      ((buildCutPlanBFDForPieces [⟨1, some 5000, some 1⟩] [some 100]
        (some ⟨some 0, some 0, some 0, some 0⟩)).shortage.map (·.missingCount)).sum =
      (buildCutPlanBFDForPieces [⟨1, some 5000, some 1⟩] [some 100]
        (some ⟨some 0, some 0, some 0, some 0⟩)).stats.totalPieces :=
  (C1_piece_conservation [⟨1, some 5000, some 1⟩] [some 100]
    (some ⟨some 0, some 0, some 0, some 0⟩)).1
    (Or.inr ⟨100, [], by decide, by decide⟩)

theorem C2_short_circuit_fail_witness :
    (buildCutPlanBFDForPieces [⟨1, some 3000, some 10⟩] [some 3100, some 900, some 3100, some 900]
      (some ⟨some 0, some 0, some 100, some 0⟩)).status = .FAIL ∧
    (buildCutPlanBFDForPieces [⟨1, some 3000, some 10⟩] [some 3100, some 900, some 3100, some 900]
      (some ⟨some 0, some 0, some 100, some 0⟩)).shortage =
      [⟨3100, countOf [3100, 3100, 900, 900] 3100,
        if (3100 : Int) + 0 ≤ maxStockLen [⟨1, some 3000, some 10⟩] then
          .KERF_ALLOWANCE_MAKES_IT_IMPOSSIBLE
        else
          .NO_STOCK_LONG_ENOUGH⟩] := by
  have h := C2_short_circuit_fail [⟨1, some 3000, some 10⟩]
    [some 3100, some 900, some 3100, some 900]
    (some ⟨some 0, some 0, some 100, some 0⟩) 3100 [3100, 900, 900]
    (by decide) (by decide)
  exact ⟨h.1, h.2.2.1⟩

end CuttingCore

namespace CuttingCore

theorem count_pos_eq_cons (x : Int) (l : List Int) (v : Int) (hv : 0 < v) :
    (((x :: l).filter (fun piece => decide (0 < piece))).filter
      (fun y => decide (y = v))).length =
    (if x = v then 1 else 0) +
      ((l.filter (fun piece => decide (0 < piece))).filter (fun y => decide (y = v))).length := by
  by_cases hx : x = v
  · subst hx
    rw [List.filter_cons, if_pos (by simpa using hv), List.filter_cons, if_pos (by simp)]
    simp
    omega
  · by_cases hpx : 0 < x
    · rw [List.filter_cons, if_pos (by simpa using hpx), List.filter_cons,
        if_neg (by simpa using hx)]
      simp [hx]
    · rw [List.filter_cons, if_neg (by simpa using hpx)]
      simp [hx]

theorem count_line (n : Nat) (h w v : Int) (hv : 0 < v) :
    ((((List.replicate n [h, w]).flatten).filter (fun piece => decide (0 < piece))).filter
      (fun y => decide (y = v))).length =
    n * ((if h = v then 1 else 0) + (if w = v then 1 else 0)) := by
  induction n with
  | zero => simp
  | succ n ih =>
    rw [List.replicate_succ, List.flatten_cons]
    rw [show ([h, w] : List Int) ++ (List.replicate n [h, w]).flatten =
      h :: w :: (List.replicate n [h, w]).flatten from rfl]
    rw [count_pos_eq_cons h _ v hv, count_pos_eq_cons w _ v hv, ih]
    ring

/-- C9: each demand line contributes `2 * qty` copies of its rounded
height and `2 * qty` copies of its rounded width; non-finite and
non-positive values are silently dropped, so every emitted piece is a
positive length and, for every positive value, its multiplicity in the
output is the sum over lines of `2 * qty` per matching dimension. -/
theorem C9_piece_expander (orderLines : List OrderLineMm) :
    (∀ v ∈ expandOrderToPieces orderLines, 0 < v) ∧
    (∀ v : Int, 0 < v →
      ((expandOrderToPieces orderLines).filter (fun x => decide (x = v))).length =
        (orderLines.map (fun line =>
          2 * (toNonNegativeInt line.qty).toNat *
            ((if toNonNegativeInt line.heightMm = v then 1 else 0) +
             (if toNonNegativeInt line.widthMm = v then 1 else 0)))).sum) := by
  constructor
  · intro v hv
    rw [expandOrderToPieces, List.mem_filter] at hv
    simpa using hv.2
  · intro v hv
    induction orderLines with
    | nil => rfl
    | cons line lines ih =>
      rw [expandOrderToPieces, List.map_cons, List.flatten_cons, List.filter_append,
        List.filter_append, List.length_append]
      rw [expandOrderToPieces] at ih
      rw [ih, List.map_cons, List.sum_cons, count_line _ _ _ _ hv]

theorem C9_piece_expander_witness :
    ((expandOrderToPieces [⟨some 1000, some 1000, some 2⟩]).filter
      (fun x => decide (x = (1000 : Int)))).length = 8 := by
  have h := (C9_piece_expander [⟨some 1000, some 1000, some 2⟩]).2 1000 (by decide)
  rw [h]
  decide

/-- C10: bar arithmetic is conserved and never negative — at every point
of the allocation loop each bar's remaining length is non-negative, and
every returned allocation satisfies `remnantMm ≥ 0`,
`usedMm + remnantMm = stock.lengthMm` and
`usedMm = sum of effectiveMm over its cuts`. -/
theorem C10_bar_arithmetic (inventoryItems : List InventoryItem)
    (piecesMm : List (Option Int)) (params : Option PartialPlanParams)
    (hk : 0 ≤ (normalizePlanParams params).kerfMm)
    (ha : 0 ≤ (normalizePlanParams params).allowanceMm) :
    (∀ l1 l2 : List Int, sortedSanitizedPieces piecesMm = l1 ++ l2 →
      ∀ b ∈ (l1.foldl (allocStep (normalizePlanParams params))
        (expandInventory inventoryItems, [])).1, 0 ≤ b.remainingMm) ∧
    (∀ a ∈ (buildCutPlanBFDForPieces inventoryItems piecesMm params).allocations,
      0 ≤ a.remnantMm ∧
      a.usedMm + a.remnantMm = a.stock.lengthMm ∧
      a.usedMm = (a.cuts.map (·.effectiveMm)).sum) := by
  constructor
  · intro l1 l2 hsplit b hb
    exact (foldl_allocStep_preserves_barInv (normalizePlanParams params) l1
      (expandInventory inventoryItems, []) (expandInventory_barInv inventoryItems) b hb).1
  · rw [buildCutPlanBFDForPieces]
    cases hps : sortedSanitizedPieces piecesMm with
    | nil =>
      rw [buildPlanFromPieces_nil]
      exact fun a ha2 => absurd ha2 (List.not_mem_nil a)
    | cons longest rest =>
      by_cases hshort : maxStockLen inventoryItems <
          longest + (normalizePlanParams params).allowanceMm + (normalizePlanParams params).kerfMm
      · rw [buildPlanFromPieces_cons_short _ _ _ _ hshort]
        exact fun a ha2 => absurd ha2 (List.not_mem_nil a)
      · rw [buildPlanFromPieces]
        dsimp only
        rw [if_neg hshort]
        intro a ha2
        rw [List.mem_map] at ha2
        obtain ⟨bar, hbar, ha2⟩ := ha2
        rw [List.mem_filter] at hbar
        have hinv := foldl_allocStep_preserves_barInv (normalizePlanParams params)
          (longest :: rest) (expandInventory inventoryItems, [])
          (expandInventory_barInv inventoryItems) bar hbar.1
        rw [← ha2]
        refine ⟨hinv.1, by dsimp only; omega, ?_⟩
        show bar.originalMm - bar.remainingMm = (bar.cuts.map (·.effectiveMm)).sum
        exact hinv.2

theorem C10_bar_arithmetic_witness :
    0 ≤ (⟨⟨5000, 1⟩, [⟨1200, 1200⟩, ⟨1200, 1200⟩], 2400, 2600, true⟩ : Allocation).remnantMm ∧
    (⟨⟨5000, 1⟩, [⟨1200, 1200⟩, ⟨1200, 1200⟩], 2400, 2600, true⟩ : Allocation).usedMm +
        (⟨⟨5000, 1⟩, [⟨1200, 1200⟩, ⟨1200, 1200⟩], 2400, 2600, true⟩ : Allocation).remnantMm =
      (⟨⟨5000, 1⟩, [⟨1200, 1200⟩, ⟨1200, 1200⟩], 2400, 2600, true⟩ : Allocation).stock.lengthMm ∧
    (⟨⟨5000, 1⟩, [⟨1200, 1200⟩, ⟨1200, 1200⟩], 2400, 2600, true⟩ : Allocation).usedMm =
      ((⟨⟨5000, 1⟩, [⟨1200, 1200⟩, ⟨1200, 1200⟩], 2400, 2600, true⟩ : Allocation).cuts.map
        (·.effectiveMm)).sum :=
  (C10_bar_arithmetic [⟨1, some 5000, some 1⟩] [some 1200, some 1200]
    (some ⟨some 0, some 0, some 300, some 0⟩) (by decide) (by decide)).2
    ⟨⟨5000, 1⟩, [⟨1200, 1200⟩, ⟨1200, 1200⟩], 2400, 2600, true⟩ (by decide)

end CuttingCore

namespace CuttingCore

/-- C3: the engine folds over the sanitized pieces in descending order;
each step either places the piece on the bar with the smallest
non-negative leftover after subtracting the effective length (ties
resolved by scan order), recording the cut and shrinking that bar, or —
when no bar has enough remaining length — tallies the piece under its
length; the resulting shortage items all carry
`INSUFFICIENT_STOCK_AFTER_ALLOCATION` and are sorted by descending piece
length. -/
theorem C3_best_fit_decreasing (inventoryItems : List InventoryItem)
    (piecesMm : List (Option Int)) (params : Option PartialPlanParams) :
    List.Sorted (fun a b => b ≤ a) (sortedSanitizedPieces piecesMm) ∧
    buildCutPlanBFDForPieces inventoryItems piecesMm params =
      buildPlanFromPieces inventoryItems (sortedSanitizedPieces piecesMm)
        (normalizePlanParams params) ∧
    (∀ (q : PlanParams) (bars : List MutableBar) (tally : List (Int × Int)) (piece : Int),
      (findBestIdx bars (piece + q.allowanceMm + q.kerfMm) = none ↔
        ∀ b ∈ bars, b.remainingMm < piece + q.allowanceMm + q.kerfMm) ∧
      (findBestIdx bars (piece + q.allowanceMm + q.kerfMm) = none →
        allocStep q (bars, tally) piece = (bars, tallyIncr tally piece)) ∧
      (∀ i, findBestIdx bars (piece + q.allowanceMm + q.kerfMm) = some i →
        ∃ bar, bars.get? i = some bar ∧
          piece + q.allowanceMm + q.kerfMm ≤ bar.remainingMm ∧
          (∀ j bar2, bars.get? j = some bar2 →
            piece + q.allowanceMm + q.kerfMm ≤ bar2.remainingMm →
            bar.remainingMm - (piece + q.allowanceMm + q.kerfMm) ≤
              bar2.remainingMm - (piece + q.allowanceMm + q.kerfMm)) ∧
          (∀ j bar2, j < i → bars.get? j = some bar2 →
            piece + q.allowanceMm + q.kerfMm ≤ bar2.remainingMm →
            bar.remainingMm - (piece + q.allowanceMm + q.kerfMm) <
              bar2.remainingMm - (piece + q.allowanceMm + q.kerfMm)) ∧
          allocStep q (bars, tally) piece =
            (bars.set i
              { bar with
                cuts := bar.cuts ++
                  [{ pieceMm := piece, effectiveMm := piece + q.allowanceMm + q.kerfMm }]
                remainingMm := bar.remainingMm - (piece + q.allowanceMm + q.kerfMm) },
              tally))) ∧
    (∀ (m : List (Int × Int)) (k : Int),
      lookupTally (tallyIncr m k) k = some ((lookupTally m k).getD 0 + 1) ∧
      ∀ k2, k2 ≠ k → lookupTally (tallyIncr m k) k2 = lookupTally m k2) ∧
    (∀ longest rest, sortedSanitizedPieces piecesMm = longest :: rest →
      longest + (normalizePlanParams params).allowanceMm + (normalizePlanParams params).kerfMm ≤
        maxStockLen inventoryItems →
      (∀ s ∈ (buildCutPlanBFDForPieces inventoryItems piecesMm params).shortage,
        s.reason = .INSUFFICIENT_STOCK_AFTER_ALLOCATION) ∧
      List.Sorted (fun s1 s2 => s2.pieceMm ≤ s1.pieceMm)
        (buildCutPlanBFDForPieces inventoryItems piecesMm params).shortage) := by
  refine ⟨sorted_sortDescBy _ _, rfl, ?_, ?_, ?_⟩
  · intro q bars tally piece
    refine ⟨findBestIdx_eq_none_iff bars _, allocStep_eq_none q (bars, tally) piece, ?_⟩
    intro i hfind
    obtain ⟨bar, hget, hfeas, hmin, hstrict⟩ := findBestIdx_spec bars _ i hfind
    refine ⟨bar, hget, hfeas, ?_, ?_, allocStep_eq_some q (bars, tally) piece i bar hfind hget⟩
    · intro j bar2 hget2 hfeas2
      have := hmin j bar2 hget2 hfeas2
      omega
    · intro j bar2 hj hget2 hfeas2
      have := hstrict j bar2 hj hget2 hfeas2
      omega
  · intro m k
    constructor
    · rw [lookupTally_tallyIncr, if_pos rfl]
    · intro k2 hk2
      rw [lookupTally_tallyIncr, if_neg hk2]
  · intro longest rest hps hfit
    rw [buildCutPlanBFDForPieces, hps, buildPlanFromPieces]
    dsimp only
    rw [if_neg (not_lt.mpr hfit)]
    constructor
    · intro s hs
      rw [List.mem_map] at hs
      obtain ⟨e, -, hs⟩ := hs
      rw [← hs]
    · have hsorted :
          List.Sorted (fun a b : Int × Int => b.1 ≤ a.1)
            (sortDescBy (fun e : Int × Int => e.1)
              ((longest :: rest).foldl (allocStep (normalizePlanParams params))
                (expandInventory inventoryItems, [])).2) :=
        sorted_sortDescBy (fun e : Int × Int => e.1) _
      exact List.Pairwise.map _ (fun a b (hab : b.1 ≤ a.1) => hab) hsorted

theorem C3_best_fit_decreasing_witness :
    allocStep ⟨0, 0, 0, 0⟩ ([⟨1, 100, 100, []⟩, ⟨1, 50, 50, []⟩], []) 40 =
      ([⟨1, 100, 100, []⟩, ⟨1, 50, 10, [⟨40, 40⟩]⟩], []) := by
  obtain ⟨-, -, hstep, -, -⟩ := C3_best_fit_decreasing [] [] none
  obtain ⟨bar, hget, -, -, -, heq⟩ :=
    (hstep ⟨0, 0, 0, 0⟩ [⟨1, 100, 100, []⟩, ⟨1, 50, 50, []⟩] [] 40).2.2 1 (by decide)
  rw [show ([⟨1, 100, 100, []⟩, ⟨1, 50, 50, []⟩] : List MutableBar).get? 1 =
    some ⟨1, 50, 50, []⟩ from rfl] at hget
  injection hget with hget
  subst hget
  exact heq.trans (by decide)

end CuttingCore

namespace CuttingCore

theorem C4_remnant_and_waste_witness :
    ((⟨⟨5000, 1⟩, [⟨1200, 1200⟩, ⟨1200, 1200⟩], 2400, 2600, true⟩ : Allocation).remnantKept = true ↔
      (normalizePlanParams (some ⟨some 0, some 0, some 300, some 0⟩)).minRemnantMm ≤
        (⟨⟨5000, 1⟩, [⟨1200, 1200⟩, ⟨1200, 1200⟩], 2400, 2600, true⟩ : Allocation).remnantMm) :=
  (C4_remnant_and_waste [⟨1, some 5000, some 1⟩] [some 1200, some 1200]
    (some ⟨some 0, some 0, some 300, some 0⟩)).1
    ⟨⟨5000, 1⟩, [⟨1200, 1200⟩, ⟨1200, 1200⟩], 2400, 2600, true⟩ (by decide)

theorem C5_status_determination_witness :
    (buildCutPlanBFDForPieces [⟨1, some 5000, some 1⟩] [some 1000]
      (some ⟨some 0, some 0, some 100, some 0⟩)).status = .SUCCESS :=
  (C5_status_determination [⟨1, some 5000, some 1⟩] [some 1000]
    (some ⟨some 0, some 0, some 100, some 0⟩)).2.1 (by decide)

end CuttingCore

namespace MemoryStore

open CuttingCore

/-! ### Claim theorems for the commit transaction -/

/-- C6: commit is idempotent — a successful commit followed by a second
commit of the same plan id yields `ALREADY_COMMITTED` and returns the
store of the first commit completely unchanged (in particular every
inventory row's quantity); committing an unknown plan id fails with
`NotFound` and changes nothing. -/
theorem C6_commit_idempotent :
    (∀ (st : Store) (pid : String) (st1 : Store),
      commitPlan st pid = .ok (.COMMITTED, st1) →
      commitPlan st1 pid = .ok (.ALREADY_COMMITTED, st1)) ∧
    (∀ (st : Store) (pid : String),
      lookupPlan st.plans pid = none →
      commitPlan st pid = .error (.notFound, st)) := by
  constructor
  · intro st pid st1 h
    obtain ⟨plan, rem, hlp, hplanned, hchk, hrem, hplans, hinv⟩ :=
      commitPlan_ok_committed_elim st pid st1 h
    have hlp1 : lookupPlan st1.plans pid = some { plan with status := .COMMITTED } := by
      rw [hplans, lookupPlan_setPlanStatus, hlp]
      rfl
    exact commitPlan_alreadyCommitted st1 pid _ hlp1 rfl
  · intro st pid h
    exact commitPlan_notFound st pid h

/-- C7: commit is atomic on conflict — when the plan is staged and some
referenced inventory row holds fewer units than the plan's required
consumption for it, `commitPlan` fails with `Conflict` and returns the
store unchanged: no quantity is decremented, no remnant inserted, and the
plan stays `PLANNED`. -/
theorem C7_commit_conflict_atomic (st : Store) (pid : String) (plan : MemoryPlan)
    (hlp : lookupPlan st.plans pid = some plan)
    (hst : plan.status = .PLANNED)
    (hshort : ∃ sid cnt row, (sid, cnt) ∈ summarizeConsumption plan.result.allocations ∧
      findRow st.inventory sid = some row ∧ row.qty < cnt) :
    commitPlan st pid = .error (.conflict, st) :=
  commitPlan_conflict st pid plan hlp hst hshort

/-- C8: a successful commit decrements each referenced inventory row by
the number of allocations referencing it, merges every kept remnant back
into the ledger as one unit of stock at its remnant length grouped by
`(class, length)`, and marks the plan `COMMITTED`. -/
theorem C8_commit_effect (st : Store) (pid : String) (st1 : Store)
    (hWF : (st.inventory.map (·.id)).Nodup)
    (h : commitPlan st pid = .ok (.COMMITTED, st1)) :
    ∃ plan, lookupPlan st.plans pid = some plan ∧
      lookupPlan st1.plans pid = some { plan with status := .COMMITTED } ∧
      (∀ sid : Int, (lookupTally (summarizeConsumption plan.result.allocations) sid).getD 0 =
        countRefs plan.result.allocations sid) ∧
      ∃ rem, summarizeRemnants plan.result.allocations
          (resolveClass (consumeSpec st.inventory plan.result.allocations)) = some rem ∧
        (∀ (c : InventoryClass) (L : Int),
          (lookupTally rem (c, L)).getD 0 =
            countKeptRemnants plan.result.allocations
              (resolveClass (consumeSpec st.inventory plan.result.allocations)) c L) ∧
        st1.inventory =
          (rem.foldl (fun s e => addInventoryInternal s e.1.2 e.2 e.1.1)
            { st with inventory := consumeSpec st.inventory plan.result.allocations }).inventory := by
  obtain ⟨plan, rem, hlp, hplanned, hchk, hrem, hplans, hinv⟩ :=
    commitPlan_ok_committed_elim st pid st1 h
  have hcs := consumeSpec_eq_foldl st plan.result.allocations hWF
  rw [hcs] at hrem hinv
  refine ⟨plan, hlp, ?_, fun sid => getD_lookup_summarizeConsumption _ _, rem, hrem, ?_, hinv⟩
  · rw [hplans, lookupPlan_setPlanStatus, hlp]
    rfl
  · intro c L
    exact summarizeRemnants_lookup _ _ _ hrem c L

/-- Example plan results and stores exercising the commit claims. -/
def exampleEmptyResult : CutPlanResult := ⟨.SUCCESS, [], [], [], ⟨0, 0, 0⟩⟩

def exampleStorePlanned : Store :=
  ⟨[⟨1, .Komarnici, 3000, 5⟩], [("p1", ⟨DEFAULT_PLAN_PARAMS, .PLANNED, exampleEmptyResult⟩)], 2⟩

def exampleStoreCommitted : Store :=
  ⟨[⟨1, .Komarnici, 3000, 5⟩], [("p1", ⟨DEFAULT_PLAN_PARAMS, .COMMITTED, exampleEmptyResult⟩)], 2⟩

def exampleResultOneCut : CutPlanResult :=
  ⟨.SUCCESS, [], [⟨⟨5000, 1⟩, [⟨1000, 1000⟩], 1000, 4000, true⟩], [], ⟨1, 1, 0⟩⟩

def exampleStoreBefore : Store :=
  ⟨[⟨1, .Komarnici, 5000, 2⟩], [("p1", ⟨DEFAULT_PLAN_PARAMS, .PLANNED, exampleResultOneCut⟩)], 2⟩

def exampleStoreAfter : Store :=
  ⟨[⟨1, .Komarnici, 5000, 1⟩, ⟨2, .Komarnici, 4000, 1⟩],
    [("p1", ⟨DEFAULT_PLAN_PARAMS, .COMMITTED, exampleResultOneCut⟩)], 3⟩

def exampleResultConflict : CutPlanResult :=
  ⟨.SUCCESS, [], [⟨⟨3000, 1⟩, [⟨100, 100⟩], 100, 2900, true⟩], [], ⟨1, 1, 0⟩⟩

def exampleStoreShort : Store :=
  ⟨[⟨1, .Komarnici, 3000, 0⟩], [("p1", ⟨DEFAULT_PLAN_PARAMS, .PLANNED, exampleResultConflict⟩)], 2⟩

theorem C6_commit_idempotent_witness :
    commitPlan exampleStoreCommitted "p1" = .ok (.ALREADY_COMMITTED, exampleStoreCommitted) :=
  C6_commit_idempotent.1 exampleStorePlanned "p1" exampleStoreCommitted rfl

theorem C7_commit_conflict_atomic_witness :
    commitPlan exampleStoreShort "p1" = .error (.conflict, exampleStoreShort) :=
  C7_commit_conflict_atomic exampleStoreShort "p1"
    ⟨DEFAULT_PLAN_PARAMS, .PLANNED, exampleResultConflict⟩ rfl rfl
    ⟨1, 1, ⟨1, .Komarnici, 3000, 0⟩, by decide, rfl, by decide⟩

theorem C8_commit_effect_witness :
    ∃ plan, lookupPlan exampleStoreBefore.plans "p1" = some plan ∧
      lookupPlan exampleStoreAfter.plans "p1" = some { plan with status := .COMMITTED } ∧
      (∀ sid : Int, (lookupTally (summarizeConsumption plan.result.allocations) sid).getD 0 =
        countRefs plan.result.allocations sid) ∧
      ∃ rem, summarizeRemnants plan.result.allocations
          (resolveClass (consumeSpec exampleStoreBefore.inventory plan.result.allocations)) =
            some rem ∧
        (∀ (c : InventoryClass) (L : Int),
          (lookupTally rem (c, L)).getD 0 =
            countKeptRemnants plan.result.allocations
              (resolveClass (consumeSpec exampleStoreBefore.inventory plan.result.allocations))
              c L) ∧
        exampleStoreAfter.inventory =
          (rem.foldl (fun s e => addInventoryInternal s e.1.2 e.2 e.1.1)
            { exampleStoreBefore with
              inventory := consumeSpec exampleStoreBefore.inventory
                plan.result.allocations }).inventory :=
  C8_commit_effect exampleStoreBefore "p1" exampleStoreAfter (by decide) rfl

end MemoryStore
